import Mathlib

/-!
Verification of the core streaming spectrogram pipeline of `sgram-tui`.

The Rust source is shallowly embedded: `f32` samples are idealized as `ℚ`,
and the transcendental primitives the code calls out to (`sqrt`, `log10`,
`cos`, and the external `rustfft` forward transform) are collected in a
`DspOps` record of abstract functions, so every definition stays executable
once a concrete `DspOps` is supplied.
-/

/-- Abstract numeric primitives used by the DSP code: `sqrt` and `log10`
from `f32`, `cosTau x` standing for `cos (2·π·x)` (used only to build
window coefficients), and the external forward FFT of `rustfft`
(`Spectrogram.fft.process`, in-place on a buffer of length `fft_size`). -/
structure DspOps where
  sqrt : ℚ → ℚ
  log10 : ℚ → ℚ
  cosTau : ℚ → ℚ
  fft : List (ℚ × ℚ) → List (ℚ × ℚ)

/-- A trivial computable instantiation of the abstract primitives,
used to evaluate the model on concrete inputs. -/
def idOps : DspOps := ⟨id, id, id, id⟩

/-- `dsp.rs` `WindowType`. -/
inductive WindowType
  | hann
  | hamming
  | blackman

/-- `dsp.rs` `fn hann`: coefficient `i` is `0.5 - 0.5·cos(2π·i/n)`. -/
def hannWindow (ops : DspOps) (n : ℕ) : List ℚ :=
  (List.range n).map (fun i => 1/2 - 1/2 * ops.cosTau ((i : ℚ) / (n : ℚ)))

/-- `dsp.rs` `fn hamming`: coefficient `i` is `0.54 - 0.46·cos(2π·i/n)`. -/
def hammingWindow (ops : DspOps) (n : ℕ) : List ℚ :=
  (List.range n).map (fun i => 0.54 - 0.46 * ops.cosTau ((i : ℚ) / (n : ℚ)))

/-- `dsp.rs` `fn blackman`: coefficient `i` is
`0.42 - 0.5·cos(2π·i/n) + 0.08·cos(4π·i/n)`. -/
def blackmanWindow (ops : DspOps) (n : ℕ) : List ℚ :=
  (List.range n).map (fun i =>
    0.42 - 0.5 * ops.cosTau ((i : ℚ) / (n : ℚ)) + 0.08 * ops.cosTau (2 * (i : ℚ) / (n : ℚ)))

/-- `dsp.rs` `struct Spectrogram` (the `tmp` scratch buffer is recomputed
per frame in the model and the FFT plan lives in `DspOps`). -/
structure Spectrogram where
  fft_size : ℕ
  frame_len : ℕ
  hop : ℕ
  db_floor : ℚ
  sample_rate : ℕ
  window : List ℚ
  overlap_buf : List ℚ
  alpha : ℕ
  pre_emph : Option ℚ
  prev_sample : ℚ
  clamp_floor : Bool
  normalize : Bool

/-- `dsp.rs` `struct SpectrogramBuilder`. -/
structure SpectrogramBuilder where
  fft_size : ℕ
  frame_len : ℕ
  hop : ℕ
  db_floor : ℚ
  sample_rate : ℕ
  window : WindowType
  alpha : ℕ
  pre_emph : Option ℚ
  clamp_floor : Bool
  normalize : Bool

/-- `SpectrogramBuilder::new`. -/
def SpectrogramBuilder.new (fft_size frame_len hop : ℕ) : SpectrogramBuilder :=
  { fft_size := fft_size, frame_len := frame_len, hop := hop, db_floor := -80,
    sample_rate := 48000, window := .hann, alpha := 1, pre_emph := none,
    clamp_floor := false, normalize := false }

/-- `SpectrogramBuilder::db_floor`. -/
def SpectrogramBuilder.withDbFloor (b : SpectrogramBuilder) (f : ℚ) : SpectrogramBuilder :=
  { b with db_floor := f }

/-- `SpectrogramBuilder::sample_rate`. -/
def SpectrogramBuilder.withSampleRate (b : SpectrogramBuilder) (sr : ℕ) : SpectrogramBuilder :=
  { b with sample_rate := sr }

/-- `SpectrogramBuilder::window`. -/
def SpectrogramBuilder.withWindow (b : SpectrogramBuilder) (w : WindowType) : SpectrogramBuilder :=
  { b with window := w }

/-- `SpectrogramBuilder::alpha`: `if a == 2 { 2 } else { 1 }`. -/
def SpectrogramBuilder.withAlpha (b : SpectrogramBuilder) (a : ℕ) : SpectrogramBuilder :=
  { b with alpha := if a = 2 then 2 else 1 }

/-- `SpectrogramBuilder::pre_emphasis`. -/
def SpectrogramBuilder.withPreEmphasis (b : SpectrogramBuilder) (beta : Option ℚ) : SpectrogramBuilder :=
  { b with pre_emph := beta }

/-- `SpectrogramBuilder::clamp_floor`. -/
def SpectrogramBuilder.withClampFloor (b : SpectrogramBuilder) (flag : Bool) : SpectrogramBuilder :=
  { b with clamp_floor := flag }

/-- `SpectrogramBuilder::normalize`. -/
def SpectrogramBuilder.withNormalize (b : SpectrogramBuilder) (flag : Bool) : SpectrogramBuilder :=
  { b with normalize := flag }

/-- `SpectrogramBuilder::build`: the only clamp performed here is
`hop: self.hop.min(self.frame_len).max(1)`; `fft_size` and `frame_len`
are taken as given. -/
def SpectrogramBuilder.build (b : SpectrogramBuilder) (ops : DspOps) : Spectrogram :=
  { fft_size := b.fft_size
    frame_len := b.frame_len
    hop := max (min b.hop b.frame_len) 1
    db_floor := b.db_floor
    sample_rate := b.sample_rate
    window :=
      match b.window with
      | .hann => hannWindow ops b.frame_len
      | .hamming => hammingWindow ops b.frame_len
      | .blackman => blackmanWindow ops b.frame_len
    overlap_buf := []
    alpha := b.alpha
    pre_emph := b.pre_emph
    prev_sample := 0
    clamp_floor := b.clamp_floor
    normalize := b.normalize }

/-- `app.rs` `App::new` lines 128-131: `frame_len = window_len.min(fft_size).max(16)`
and `hop = hop_size.min(frame_len).max(1)`, followed by the builder chain
ending in `build()`. -/
def appSpectrogram (ops : DspOps) (fft_size window_len hop_size : ℕ) (floor : ℚ)
    (sr : ℕ) (alpha : ℕ) (pre_emph : Option ℚ) (clamp normal : Bool) : Spectrogram :=
  let frame_len := max (min window_len fft_size) 16
  let hop := max (min hop_size frame_len) 1
  ((((((((SpectrogramBuilder.new fft_size frame_len hop).withWindow
    .hann).withDbFloor floor).withSampleRate sr).withAlpha
    alpha).withPreEmphasis pre_emph).withClampFloor clamp).withNormalize normal).build ops

/-- `process_samples` lines 76-84: ingest the chunk into the overlap buffer,
applying `y[n] = x[n] - beta*x[n-1]` with the persistent `prev_sample` when
pre-emphasis is set. Returns the new `prev_sample` and `overlap_buf`. -/
def ingest (s : Spectrogram) (xs : List ℚ) : ℚ × List ℚ :=
  match s.pre_emph with
  | some beta =>
      xs.foldl (fun acc x => (x, acc.2 ++ [x - beta * acc.1])) (s.prev_sample, s.overlap_buf)
  | none => (s.prev_sample, s.overlap_buf ++ xs)

/-- `process_samples` lines 91-100: window the first `frame_len` samples of
the buffer and zero-pad up to `fft_size`, as (re, im) pairs. -/
def frameTmp (s : Spectrogram) (buf : List ℚ) : List (ℚ × ℚ) :=
  (List.range s.fft_size).map (fun i =>
    if i < s.frame_len then ((buf.getD i 0) * (s.window.getD i 0), 0) else (0, 0))

/-- The FFT output for the current frame (`self.fft.process(&mut self.tmp)`). -/
def fftBins (ops : DspOps) (s : Spectrogram) (buf : List ℚ) : List (ℚ × ℚ) :=
  ops.fft (frameTmp s buf)

/-- `process_samples` lines 107-115: one bin of the dB row. For `alpha = 2`,
`10·log10(max(re²+im², 1e-24))`; otherwise `20·log10(max(sqrt(re²+im²), 1e-12))`. -/
def dbBin (ops : DspOps) (alpha : ℕ) (c : ℚ × ℚ) : ℚ :=
  let re2 := c.1 * c.1
  let im2 := c.2 * c.2
  if alpha = 2 then 10 * ops.log10 (max (re2 + im2) (1 / 10 ^ 24))
  else 20 * ops.log10 (max (ops.sqrt (re2 + im2)) (1 / 10 ^ 12))

/-- `process_samples` lines 103-116: the row of the first `fft_size/2` bins
in dB, before normalization and clamping. -/
def rawRow (ops : DspOps) (s : Spectrogram) (buf : List ℚ) : List ℚ :=
  (List.range (s.fft_size / 2)).map (fun i => dbBin ops s.alpha ((fftBins ops s buf).getD i (0, 0)))

/-- The maximum of a row as computed by
`row.iter().max_by(|a,b| a.partial_cmp(b).unwrap())` (`none` iff empty). -/
def rowMax : List ℚ → Option ℚ
  | [] => none
  | x :: xs => some (xs.foldl max x)

/-- `process_samples` lines 117-121: peak-normalization, subtracting the
row's own maximum from every value (skipped on an empty row). -/
def normalizeRow (row : List ℚ) : List ℚ :=
  match rowMax row with
  | some mx => row.map (fun v => v - mx)
  | none => row

/-- `process_samples` lines 122-124: clip every value below `db_floor` up
to `db_floor`. -/
def clampRow (floor : ℚ) (row : List ℚ) : List ℚ :=
  row.map (fun v => if v < floor then floor else v)

/-- One completed row as pushed into `out`: raw dB row, then optional
normalization, then optional floor clamping. -/
def frameRow (ops : DspOps) (s : Spectrogram) (buf : List ℚ) : List ℚ :=
  let row := rawRow ops s buf
  let row := if s.normalize then normalizeRow row else row
  if s.clamp_floor then clampRow s.db_floor row else row

/-- `process_samples` lines 87-130: the `while self.overlap_buf.len() >= self.frame_len`
loop, emitting one row per iteration and advancing the buffer by
`hop.min(overlap_buf.len())`. The loop in the source terminates only when
`1 ≤ hop` and `1 ≤ frame_len` (both hold for every state the constructor
produces with a nonzero frame); those two conditions guard the recursion
here. The `fuel` argument is a structural-recursion device only: each
iteration consumes at least one buffered sample, so any `fuel ≥ buf.length`
yields the loop's fixpoint (see `specLoopF_congr`). -/
def specLoopF (ops : DspOps) (s : Spectrogram) : ℕ → List ℚ → List (List ℚ) × List ℚ
  | 0, buf => ([], buf)
  | fuel + 1, buf =>
    if s.frame_len ≤ buf.length ∧ 1 ≤ s.hop ∧ 1 ≤ s.frame_len then
      let row := frameRow ops s buf
      let hp := min s.hop buf.length
      let rest := specLoopF ops s fuel (buf.drop hp)
      (row :: rest.1, rest.2)
    else ([], buf)

/-- The frame loop, run with sufficient fuel. -/
def specLoop (ops : DspOps) (s : Spectrogram) (buf : List ℚ) : List (List ℚ) × List ℚ :=
  specLoopF ops s buf.length buf

/-- `Spectrogram::process_samples`: ingest the chunk, run the frame loop,
and return the completed rows together with the updated state. -/
def processSamples (ops : DspOps) (s : Spectrogram) (xs : List ℚ) :
    List (List ℚ) × Spectrogram :=
  let ing := ingest s xs
  let res := specLoop ops s ing.2
  (res.1, { s with prev_sample := ing.1, overlap_buf := res.2 })

/-- A tiny concrete state used to evaluate the model in witnesses:
`fft_size = 2`, `frame_len = 1`, `hop = 1`, rectangular window `[1]`
(all field values reachable through the builder). -/
def tinyS : Spectrogram :=
  { fft_size := 2, frame_len := 1, hop := 1, db_floor := -40, sample_rate := 48000,
    window := [1], overlap_buf := [], alpha := 1, pre_emph := none, prev_sample := 0,
    clamp_floor := false, normalize := false }

/-- Modelled from the spec: "For bins 0..fft_size/2: compute re²+im²; if
exponent=2 (power), row[i] = 10·log10(max(power, 1e-24)); else (amplitude),
row[i] = 20·log10(max(sqrt(power), 1e-12))", written as the spec phrases
it (power first, then the branch on the magnitude exponent). -/
def specDbFormula (ops : DspOps) (alpha : ℕ) (re im : ℚ) : ℚ :=
  let power := re * re + im * im
  if alpha = 2 then 10 * ops.log10 (max power (1 / 10 ^ 24))
  else 20 * ops.log10 (max (ops.sqrt power) (1 / 10 ^ 12))

/-- The `App` fields the History Buffer operations touch (`app.rs`):
`buffer` is the `VecDeque` with the newest row at the head, `max_history`
is fixed at construction, `zoom` is the current zoom factor. -/
structure AppState where
  zoom : ℚ
  max_history : ℕ
  buffer : List (List ℚ)

/-- `App::new`: `max_history = settings.history.max(16)`. -/
def appMaxHistory (history : ℕ) : ℕ := max history 16

/-- `App::push_row` lines 206-208: `while self.buffer.len() > self.max_history
{ self.buffer.pop_back(); }` — evict from the back (oldest) while over
capacity. -/
def evictBack (m : ℕ) (buf : List (List ℚ)) : List (List ℚ) :=
  if m < buf.length then evictBack m buf.dropLast else buf
termination_by buf.length
decreasing_by
  rw [List.length_dropLast]
  omega

/-- `App::push_row` lines 202-205: truncate the incoming row to
`((bins as f32) / zoom).round() as usize`, at least 1 bin
(`row.truncate(take.max(1))`). -/
def truncRow (zoom : ℚ) (row : List ℚ) (bins : ℕ) : List ℚ :=
  let take := (round ((bins : ℚ) / zoom)).toNat
  row.take (max take 1)

/-- `App::push_row`: truncate with the zoom active now, insert at the
front, then evict from the back while over capacity. -/
def pushRow (st : AppState) (row : List ℚ) (bins : ℕ) : AppState :=
  { st with buffer := evictBack st.max_history (truncRow st.zoom row bins :: st.buffer) }

/-- `App::adjust_zoom`: `self.zoom = (self.zoom + delta).clamp(1.0, 64.0)`. -/
def adjustZoom (st : AppState) (delta : ℚ) : AppState :=
  { st with zoom := min (max (st.zoom + delta) 1) 64 }

/-- `data.chunks_exact(channels)`: the consecutive complete
`channels`-sized frames of the device buffer (any remainder is ignored).
The fuel argument (`data.length` at the entry point) only drives the
structural recursion. -/
def chunksExactF (c : ℕ) : ℕ → List ℚ → List (List ℚ)
  | 0, _ => []
  | fuel + 1, data =>
    if 0 < c ∧ c ≤ data.length then data.take c :: chunksExactF c fuel (data.drop c)
    else []

/-- `data.chunks_exact(channels)` with sufficient fuel. -/
def chunksExact (c : ℕ) (data : List ℚ) : List (List ℚ) :=
  chunksExactF c data.length data

/-- `input.rs` `run_mic` F32 callback lines 183-186: downmix each complete
frame to its channel mean `frame.iter().sum::<f32>() / channels`. -/
def downmix (channels : ℕ) (data : List ℚ) : List ℚ :=
  (chunksExact channels data).map (fun frame => frame.sum / (channels : ℚ))

/-- `crossbeam_channel::bounded(cap)` with `try_send`: append the message
when the queue has space; when it is full, the send fails and the message
(the freshly captured buffer) is discarded — the queue itself is untouched. -/
def tryEnqueue (cap : ℕ) (q : List (List ℚ)) (b : List ℚ) : List (List ℚ) :=
  if q.length < cap then q ++ [b] else q

/-- `run_mic` F32 callback lines 182-189: downmix the device buffer and
`let _ = tx.try_send(mono)` into the `bounded::<Vec<f32>>(64)` queue. -/
def micCallback (channels : ℕ) (data : List ℚ) (q : List (List ℚ)) : List (List ℚ) :=
  tryEnqueue 64 q (downmix channels data)

/-- Fuel sufficient for the resampler's drain loop starting at `pos`:
each iteration advances `pos` by `step`, so `⌈(len - pos)/step⌉` bounds the
number of iterations (`drainLoopF_exit` shows this fuel is enough). -/
def requiredFuel (step : ℚ) (len : ℕ) (pos : ℚ) : ℕ :=
  (⌈((len : ℚ) - pos) / step⌉).toNat

/-- `input.rs` `resample_drain` lines 100-106: the
`while *src_pos + 1.0 < src_buf.len()` loop — linearly interpolate between
the two bracketing samples (`i0 = pos.floor()`, weight `frac = pos - i0`),
push one output sample, advance `pos` by `step`. The fuel argument only
drives the structural recursion. -/
def drainLoopF (step : ℚ) (src : List ℚ) : ℕ → ℚ → List ℚ → ℚ × List ℚ
  | 0, pos, out => (pos, out)
  | fuel + 1, pos, out =>
    if pos + 1 < (src.length : ℚ) then
      let i0 := (⌊pos⌋).toNat
      let frac := pos - (i0 : ℚ)
      let y := src.getD i0 0 * (1 - frac) + src.getD (i0 + 1) 0 * frac
      drainLoopF step src fuel (pos + step) (out ++ [y])
    else (pos, out)

/-- `resample_drain` lines 107-112: drop the consumed prefix
(`consumed = pos.floor()`) when `0 < consumed < src_buf.len()`, keeping
one trailing sample for interpolation, and reduce `pos` accordingly. -/
def resampleFinish (src_buf : List ℚ) (res : ℚ × List ℚ) : List ℚ × ℚ × List ℚ :=
  if 0 < (⌊res.1⌋).toNat ∧ (⌊res.1⌋).toNat < src_buf.length then
    (src_buf.drop ((⌊res.1⌋).toNat), res.1 - (((⌊res.1⌋).toNat : ℕ) : ℚ), res.2)
  else (src_buf, res.1, res.2)

/-- `input.rs` `fn resample_drain`: early-out when fewer than 2 source
samples are buffered or `ratio ≤ 0`; otherwise drain with
`step = 1/ratio` and then drop the consumed prefix. -/
def resampleDrain (ratio : ℚ) (src_buf : List ℚ) (src_pos : ℚ) (out_buf : List ℚ) :
    List ℚ × ℚ × List ℚ :=
  if src_buf.length < 2 then (src_buf, src_pos, out_buf)
  else if ratio ≤ 0 then (src_buf, src_pos, out_buf)
  else
    resampleFinish src_buf
      (drainLoopF (1 / ratio) src_buf (requiredFuel (1 / ratio) src_buf.length src_pos)
        src_pos out_buf)

/-- A value is "finite-dB": it is produced by one of the two epsilon-floored
logarithm forms of `process_samples` (whose argument is bounded below by a
strictly positive constant, so the real-valued `log10` is defined and finite),
or from such values by the row's own post-steps: subtracting the row maximum
(normalization) or replacing a value by the finite `db_floor` constant
(clamping). -/
inductive FiniteDb (ops : DspOps) (floor : ℚ) : ℚ → Prop
  | pow (p : ℚ) : FiniteDb ops floor (10 * ops.log10 (max p (1 / 10 ^ 24)))
  | amp (m : ℚ) : FiniteDb ops floor (20 * ops.log10 (max m (1 / 10 ^ 12)))
  | sub (a b : ℚ) : FiniteDb ops floor a → FiniteDb ops floor b → FiniteDb ops floor (a - b)
  | floorVal : FiniteDb ops floor floor

/-- A sequence of `push_row` calls. -/
def applyPushes (st : AppState) (ps : List (List ℚ × ℕ)) : AppState :=
  ps.foldl (fun acc p => pushRow acc p.1 p.2) st

/-- Number of iterations of the drain loop (the output count): same
recursion as `drainLoopF`, control depends only on the buffer length. -/
def iterCountF (step : ℚ) (len : ℕ) : ℕ → ℚ → ℕ
  | 0, _ => 0
  | fuel + 1, pos => if pos + 1 < (len : ℚ) then 1 + iterCountF step len fuel (pos + step) else 0

/-- The pre-emphasized samples a chunk contributes, together with the new
`prev_sample`, starting from carried sample `p` (the appended suffix is
independent of the buffer it is appended to). -/
def emphChunk (beta p : ℚ) (xs : List ℚ) : ℚ × List ℚ :=
  xs.foldl (fun acc x => (x, acc.2 ++ [x - beta * acc.1])) (p, [])

lemma specLoopF_congr (ops : DspOps) (s : Spectrogram) :
    ∀ f1 f2 buf, buf.length ≤ f1 → buf.length ≤ f2 →
      specLoopF ops s f1 buf = specLoopF ops s f2 buf := by
  intro f1
  induction f1 with
  | zero =>
    intro f2 buf h1 h2
    have hb : buf = [] := List.length_eq_zero.mp (Nat.le_zero.mp h1)
    subst hb
    cases f2 with
    | zero => rfl
    | succ f2 =>
      rw [specLoopF, specLoopF, if_neg (by simp only [List.length_nil]; omega)]
  | succ f1 ih =>
    intro f2 buf h1 h2
    by_cases hg : s.frame_len ≤ buf.length ∧ 1 ≤ s.hop ∧ 1 ≤ s.frame_len
    · have hb1 : 1 ≤ buf.length := le_trans hg.2.2 hg.1
      obtain ⟨f2p, rfl⟩ : ∃ k, f2 = k + 1 := ⟨f2 - 1, by omega⟩
      rw [specLoopF, specLoopF, if_pos hg, if_pos hg]
      have hmin : 1 ≤ min s.hop buf.length := le_min hg.2.1 hb1
      have e := ih f2p (buf.drop (min s.hop buf.length))
        (by simp only [List.length_drop]; omega)
        (by simp only [List.length_drop]; omega)
      simp only [e]
    · cases f2 with
      | zero =>
        have hb : buf = [] := List.length_eq_zero.mp (Nat.le_zero.mp h2)
        subst hb
        rw [specLoopF, specLoopF, if_neg hg]
      | succ f2 => rw [specLoopF, specLoopF, if_neg hg, if_neg hg]

/-- The one-step unfolding of the frame loop, matching the source's
`while` shape. -/
lemma specLoop_eq (ops : DspOps) (s : Spectrogram) (buf : List ℚ) :
    specLoop ops s buf =
      if s.frame_len ≤ buf.length ∧ 1 ≤ s.hop ∧ 1 ≤ s.frame_len then
        (frameRow ops s buf :: (specLoop ops s (buf.drop (min s.hop buf.length))).1,
          (specLoop ops s (buf.drop (min s.hop buf.length))).2)
      else ([], buf) := by
  unfold specLoop
  by_cases hg : s.frame_len ≤ buf.length ∧ 1 ≤ s.hop ∧ 1 ≤ s.frame_len
  · have hb1 : 1 ≤ buf.length := le_trans hg.2.2 hg.1
    obtain ⟨k, hk⟩ : ∃ k, buf.length = k + 1 := ⟨buf.length - 1, by omega⟩
    have step : specLoopF ops s buf.length buf = specLoopF ops s (k + 1) buf :=
      congrArg (fun n => specLoopF ops s n buf) hk
    rw [step, specLoopF, if_pos hg, if_pos hg]
    have hmin : 1 ≤ min s.hop buf.length := le_min hg.2.1 hb1
    have hc : specLoopF ops s k (buf.drop (min s.hop buf.length)) =
        specLoopF ops s (buf.drop (min s.hop buf.length)).length
          (buf.drop (min s.hop buf.length)) := by
      apply specLoopF_congr <;> simp only [List.length_drop] <;> omega
    simp only [hc]
  · rw [if_neg hg]
    cases hk : buf.length with
    | zero =>
      have hb : buf = [] := List.length_eq_zero.mp hk
      subst hb
      rfl
    | succ k => rw [specLoopF, if_neg hg]

/-- C1 counterexample: with constructor inputs `fft_size = 8`,
`window_len = 8`, `hop_size = 4` (reachable as `Settings` values since
`App::new` itself never clamps `fft_size`), the clamping in `App::new`
produces `frame_len = min(8,8).max(16) = 16 > fft_size = 8`, so the claimed
invariant `frame_len ≤ fft_size` does not hold for every constructor input. -/
theorem C1_counterexample :
    ¬ ((appSpectrogram idOps 8 8 4 (-80) 48000 1 none false false).frame_len ≤
       (appSpectrogram idOps 8 8 4 (-80) 48000 1 none false false).fft_size) := by
  decide

/-- C1 (amended): provided `16 ≤ fft_size` (which `main.rs` guarantees via
`cli.fft.max(16)`, but neither `App::new` nor `SpectrogramBuilder::build`
establishes), the clamps of `App::new` lines 128-131 together with
`SpectrogramBuilder::build`'s hop clamp give `1 ≤ hop ≤ frame_len ≤ fft_size`
after construction; moreover `process_samples` never alters these three
fields, so the relations are never re-validated later. -/
theorem C1_amended (ops : DspOps) (fft win hopn : ℕ) (floor : ℚ) (sr al : ℕ)
    (pe : Option ℚ) (cl no : Bool) (hfft : 16 ≤ fft) :
    (1 ≤ (appSpectrogram ops fft win hopn floor sr al pe cl no).hop ∧
      (appSpectrogram ops fft win hopn floor sr al pe cl no).hop ≤
        (appSpectrogram ops fft win hopn floor sr al pe cl no).frame_len ∧
      (appSpectrogram ops fft win hopn floor sr al pe cl no).frame_len ≤
        (appSpectrogram ops fft win hopn floor sr al pe cl no).fft_size) ∧
    ∀ xs : List ℚ,
      (processSamples ops (appSpectrogram ops fft win hopn floor sr al pe cl no) xs).2.hop =
        (appSpectrogram ops fft win hopn floor sr al pe cl no).hop ∧
      (processSamples ops (appSpectrogram ops fft win hopn floor sr al pe cl no) xs).2.frame_len =
        (appSpectrogram ops fft win hopn floor sr al pe cl no).frame_len ∧
      (processSamples ops (appSpectrogram ops fft win hopn floor sr al pe cl no) xs).2.fft_size =
        (appSpectrogram ops fft win hopn floor sr al pe cl no).fft_size := by
  constructor
  · simp only [appSpectrogram, SpectrogramBuilder.new, SpectrogramBuilder.withWindow,
      SpectrogramBuilder.withDbFloor, SpectrogramBuilder.withSampleRate,
      SpectrogramBuilder.withAlpha, SpectrogramBuilder.withPreEmphasis,
      SpectrogramBuilder.withClampFloor, SpectrogramBuilder.withNormalize,
      SpectrogramBuilder.build]
    refine ⟨le_max_right _ _, ?_, ?_⟩
    · omega
    · omega
  · intro xs
    exact ⟨rfl, rfl, rfl⟩

/-- Witness for `C1_amended` at the default configuration
`fft = 1024`, `win = 1024`, `hop = 256`. -/
theorem C1_amended_witness :
    (1 ≤ (appSpectrogram idOps 1024 1024 256 (-80) 48000 1 none false false).hop ∧
      (appSpectrogram idOps 1024 1024 256 (-80) 48000 1 none false false).hop ≤
        (appSpectrogram idOps 1024 1024 256 (-80) 48000 1 none false false).frame_len ∧
      (appSpectrogram idOps 1024 1024 256 (-80) 48000 1 none false false).frame_len ≤
        (appSpectrogram idOps 1024 1024 256 (-80) 48000 1 none false false).fft_size) ∧
    ∀ xs : List ℚ,
      (processSamples idOps (appSpectrogram idOps 1024 1024 256 (-80) 48000 1 none false false) xs).2.hop =
        (appSpectrogram idOps 1024 1024 256 (-80) 48000 1 none false false).hop ∧
      (processSamples idOps (appSpectrogram idOps 1024 1024 256 (-80) 48000 1 none false false) xs).2.frame_len =
        (appSpectrogram idOps 1024 1024 256 (-80) 48000 1 none false false).frame_len ∧
      (processSamples idOps (appSpectrogram idOps 1024 1024 256 (-80) 48000 1 none false false) xs).2.fft_size =
        (appSpectrogram idOps 1024 1024 256 (-80) 48000 1 none false false).fft_size :=
  C1_amended idOps 1024 1024 256 (-80) 48000 1 none false false (by decide)

lemma foldl_max_mem (xs : List ℚ) (x : ℚ) : xs.foldl max x ∈ x :: xs := by
  induction xs generalizing x with
  | nil => simp
  | cons y ys ih =>
    rcases List.mem_cons.mp (ih (max x y)) with h | h
    · rcases max_choice x y with hx | hy
      · rw [List.foldl_cons, h, hx]; exact List.mem_cons_self _ _
      · rw [List.foldl_cons, h, hy]; exact List.mem_cons_of_mem _ (List.mem_cons_self _ _)
    · exact List.mem_cons_of_mem _ (List.mem_cons_of_mem _ h)

lemma le_foldl_max (xs : List ℚ) (x : ℚ) : ∀ v ∈ x :: xs, v ≤ xs.foldl max x := by
  induction xs generalizing x with
  | nil => intro v hv; simp at hv; simp [hv]
  | cons y ys ih =>
    intro v hv
    rw [List.foldl_cons]
    rcases List.mem_cons.mp hv with h | h
    · exact le_trans (h ▸ le_max_left x y) (ih (max x y) _ (List.mem_cons_self _ _))
    · rcases List.mem_cons.mp h with h2 | h2
      · exact le_trans (h2 ▸ le_max_right x y) (ih (max x y) _ (List.mem_cons_self _ _))
      · exact ih (max x y) v (List.mem_cons_of_mem _ h2)

lemma rowMax_mem {l : List ℚ} {m : ℚ} (h : rowMax l = some m) : m ∈ l := by
  cases l with
  | nil => simp [rowMax] at h
  | cons x xs =>
    simp only [rowMax, Option.some.injEq] at h
    exact h ▸ foldl_max_mem xs x

lemma le_rowMax {l : List ℚ} {m : ℚ} (h : rowMax l = some m) : ∀ v ∈ l, v ≤ m := by
  cases l with
  | nil => simp [rowMax] at h
  | cons x xs =>
    simp only [rowMax, Option.some.injEq] at h
    exact fun v hv => h ▸ le_foldl_max xs x v hv

lemma rawRow_length (ops : DspOps) (s : Spectrogram) (buf : List ℚ) :
    (rawRow ops s buf).length = s.fft_size / 2 := by
  simp [rawRow]

lemma rawRow_finite (ops : DspOps) (s : Spectrogram) (f : ℚ) (buf : List ℚ) :
    ∀ v ∈ rawRow ops s buf, FiniteDb ops f v := by
  intro v hv
  rcases List.mem_map.mp hv with ⟨i, _, hi⟩
  rw [← hi]
  unfold dbBin
  by_cases ha : s.alpha = 2
  · rw [if_pos ha]; exact FiniteDb.pow _
  · rw [if_neg ha]; exact FiniteDb.amp _

lemma normalizeRow_length (row : List ℚ) : (normalizeRow row).length = row.length := by
  unfold normalizeRow
  cases h : rowMax row <;> simp

lemma clampRow_length (f : ℚ) (row : List ℚ) : (clampRow f row).length = row.length := by
  simp [clampRow]

lemma frameRow_length (ops : DspOps) (s : Spectrogram) (buf : List ℚ) :
    (frameRow ops s buf).length = s.fft_size / 2 := by
  unfold frameRow
  by_cases hc : s.clamp_floor <;> by_cases hn : s.normalize <;>
    simp [hc, hn, clampRow_length, normalizeRow_length, rawRow_length]

lemma normalizeRow_finite (ops : DspOps) (f : ℚ) (row : List ℚ)
    (h : ∀ v ∈ row, FiniteDb ops f v) : ∀ v ∈ normalizeRow row, FiniteDb ops f v := by
  intro v hv
  unfold normalizeRow at hv
  cases hm : rowMax row with
  | none => rw [hm] at hv; exact h v hv
  | some mx =>
    rw [hm] at hv
    rcases List.mem_map.mp hv with ⟨v0, hv0, hveq⟩
    exact hveq ▸ FiniteDb.sub _ _ (h v0 hv0) (h mx (rowMax_mem hm))

lemma clampRow_finite (ops : DspOps) (f : ℚ) (row : List ℚ)
    (h : ∀ v ∈ row, FiniteDb ops f v) : ∀ v ∈ clampRow f row, FiniteDb ops f v := by
  intro v hv
  rcases List.mem_map.mp hv with ⟨v0, hv0, hveq⟩
  rw [← hveq]
  by_cases hlt : v0 < f
  · simp only [if_pos hlt]; exact FiniteDb.floorVal
  · simp only [if_neg hlt]; exact h v0 hv0

lemma frameRow_finite (ops : DspOps) (s : Spectrogram) (buf : List ℚ) :
    ∀ v ∈ frameRow ops s buf, FiniteDb ops s.db_floor v := by
  unfold frameRow
  have h0 := rawRow_finite ops s s.db_floor buf
  have h1 : ∀ v ∈ (if s.normalize then normalizeRow (rawRow ops s buf) else rawRow ops s buf),
      FiniteDb ops s.db_floor v := by
    by_cases hn : s.normalize
    · simpa [hn] using normalizeRow_finite ops s.db_floor _ h0
    · simpa [hn] using h0
  by_cases hc : s.clamp_floor
  · simpa [hc] using clampRow_finite ops s.db_floor _ h1
  · simpa [hc] using h1

lemma specLoopF_rows (ops : DspOps) (s : Spectrogram) :
    ∀ fuel buf, ∀ row ∈ (specLoopF ops s fuel buf).1, ∃ b, row = frameRow ops s b := by
  intro fuel
  induction fuel with
  | zero =>
    intro buf row hrow
    rw [specLoopF] at hrow
    exact absurd hrow (List.not_mem_nil row)
  | succ fuel ih =>
    intro buf row hrow
    rw [specLoopF] at hrow
    by_cases hg : s.frame_len ≤ buf.length ∧ 1 ≤ s.hop ∧ 1 ≤ s.frame_len
    · rw [if_pos hg] at hrow
      rcases List.mem_cons.mp hrow with h1 | h2
      · exact ⟨buf, h1⟩
      · exact ih _ row h2
    · rw [if_neg hg] at hrow; exact absurd hrow (List.not_mem_nil row)

lemma specLoop_rows (ops : DspOps) (s : Spectrogram) (buf : List ℚ) :
    ∀ row ∈ (specLoop ops s buf).1, ∃ b, row = frameRow ops s b :=
  specLoopF_rows ops s buf.length buf

lemma processSamples_rows (ops : DspOps) (s : Spectrogram) (xs : List ℚ) :
    ∀ row ∈ (processSamples ops s xs).1, ∃ b, row = frameRow ops s b :=
  fun row hrow => specLoop_rows ops s (ingest s xs).2 row hrow

/-- C2: every row returned by `process_samples` has length exactly
`fft_size / 2`, and every value in it is finite-dB — it arises from the
epsilon-floored logarithm forms (arguments bounded below by `1e-24`
resp. `1e-12`, so never `log10 0` or `log10` of a negative), possibly
post-processed by peak-normalization or floor clamping. This holds for
every input chunk, including all-zero input. -/
theorem C2_row_shape (ops : DspOps) (s : Spectrogram) (xs : List ℚ) :
    ∀ row ∈ (processSamples ops s xs).1,
      row.length = s.fft_size / 2 ∧ ∀ v ∈ row, FiniteDb ops s.db_floor v := by
  intro row hrow
  rcases processSamples_rows ops s xs row hrow with ⟨b, rfl⟩
  exact ⟨frameRow_length ops s b, frameRow_finite ops s b⟩

/-- Witness for `C2_row_shape`: the state `tinyS` on input `[1]` returns
exactly the row `[20]` (with the identity instantiation of the abstract
primitives), which has length `2 / 2 = 1`. -/
theorem C2_row_shape_witness :
    [(20 : ℚ)] ∈ (processSamples idOps tinyS [1]).1 ∧
      ([(20 : ℚ)].length = tinyS.fft_size / 2 ∧
        ∀ v ∈ [(20 : ℚ)], FiniteDb idOps tinyS.db_floor v) :=
  ⟨by with_unfolding_all decide, C2_row_shape idOps tinyS [1] [(20 : ℚ)] (by with_unfolding_all decide)⟩

/-- C3: for each of the first `fft_size/2` FFT bins, the decibel value
computed before optional normalization/clamping equals the spec's formula:
`10·log10(max(re²+im², 1e-24))` for the power exponent (alpha = 2) and
`20·log10(max(sqrt(re²+im²), 1e-12))` otherwise, for every frame. -/
theorem C3_db_formula (ops : DspOps) (s : Spectrogram) (buf : List ℚ) (i : ℕ)
    (hi : i < s.fft_size / 2) :
    (rawRow ops s buf).getD i 0 =
      specDbFormula ops s.alpha ((fftBins ops s buf).getD i (0, 0)).1
        ((fftBins ops s buf).getD i (0, 0)).2 := by
  unfold rawRow
  rw [List.getD_eq_getElem?_getD, List.getElem?_map, List.getElem?_range hi]
  rfl

/-- Witness for `C3_db_formula` at bin 0 of the state `tinyS` on the
one-sample frame `[1]`. -/
theorem C3_db_formula_witness :
    (0 < tinyS.fft_size / 2) ∧
      (rawRow idOps tinyS [1]).getD 0 0 =
        specDbFormula idOps tinyS.alpha ((fftBins idOps tinyS [1]).getD 0 (0, 0)).1
          ((fftBins idOps tinyS [1]).getD 0 (0, 0)).2 :=
  ⟨by decide, C3_db_formula idOps tinyS [1] 0 (by decide)⟩

lemma normalizeRow_nonpos (row : List ℚ) : ∀ v ∈ normalizeRow row, v ≤ 0 := by
  intro v hv
  unfold normalizeRow at hv
  cases hm : rowMax row with
  | none =>
    rw [hm] at hv
    cases row with
    | nil => exact absurd hv (List.not_mem_nil v)
    | cons x xs => simp [rowMax] at hm
  | some mx =>
    rw [hm] at hv
    rcases List.mem_map.mp hv with ⟨v0, hv0, hveq⟩
    have hle := le_rowMax hm v0 hv0
    rw [← hveq]
    exact sub_nonpos.mpr hle

lemma clampRow_lower (f : ℚ) (row : List ℚ) : ∀ v ∈ clampRow f row, f ≤ v := by
  intro v hv
  rcases List.mem_map.mp hv with ⟨v0, _, hveq⟩
  rw [← hveq]
  by_cases hlt : v0 < f
  · simp only [if_pos hlt]; exact le_refl f
  · simp only [if_neg hlt]; exact le_of_not_lt hlt

lemma clampRow_upper (f : ℚ) (row : List ℚ) (hf : f ≤ 0)
    (h : ∀ v ∈ row, v ≤ 0) : ∀ v ∈ clampRow f row, v ≤ 0 := by
  intro v hv
  rcases List.mem_map.mp hv with ⟨v0, hv0, hveq⟩
  rw [← hveq]
  by_cases hlt : v0 < f
  · simp only [if_pos hlt]; exact hf
  · simp only [if_neg hlt]; exact h v0 hv0

/-- C5 counterexample: with peak-normalization enabled together with
floor clamping at a positive `db_floor` (the builder and the CLI accept any
floor value), the non-silent input `[1]` yields the row `[5]`, whose maximum
is strictly positive: clamping runs after normalization and lifts every
value up to `db_floor = 5 > 0`. -/
theorem C5_counterexample :
    ¬ (∀ row ∈ (processSamples idOps
          { tinyS with normalize := true, clamp_floor := true, db_floor := 5 } [1]).1,
        ∀ v ∈ row, v ≤ 0) := by
  with_unfolding_all decide

/-- C5 (amended): when peak-normalization is enabled, every value of every
row returned by `process_samples` is ≤ 0 — provided floor clamping is
disabled or `db_floor ≤ 0` (always true for the documented floor range;
a positive `db_floor` with clamping enabled lifts the peak above 0). -/
theorem C5_amended (ops : DspOps) (s : Spectrogram) (xs : List ℚ)
    (hn : s.normalize = true) (hcf : s.clamp_floor = false ∨ s.db_floor ≤ 0) :
    ∀ row ∈ (processSamples ops s xs).1, ∀ v ∈ row, v ≤ 0 := by
  intro row hrow
  rcases processSamples_rows ops s xs row hrow with ⟨b, rfl⟩
  unfold frameRow
  rw [hn]
  simp only [if_true]
  have hnorm := normalizeRow_nonpos (rawRow ops s b)
  cases hc : s.clamp_floor with
  | false => simpa using hnorm
  | true =>
    rcases hcf with hcf | hcf
    · rw [hc] at hcf; exact absurd hcf (by simp)
    · simp only [if_true]
      exact clampRow_upper s.db_floor _ hcf hnorm

/-- Witness for `C5_amended`: normalization on, clamping off, on the
non-silent input `[1]`, which returns exactly the row `[0]`. -/
theorem C5_amended_witness :
    [(0 : ℚ)] ∈ (processSamples idOps { tinyS with normalize := true } [1]).1 ∧
      (0 : ℚ) ≤ 0 :=
  ⟨by with_unfolding_all decide,
    C5_amended idOps { tinyS with normalize := true } [1] rfl (Or.inl rfl)
      [(0 : ℚ)] (by with_unfolding_all decide) 0 (by decide)⟩

/-- C6: when floor clamping is enabled, every value of every row returned
by `process_samples` is at least `db_floor`, for every input chunk
(in particular all-zero input with `db_floor = -40`). -/
theorem C6_floor_clamped (ops : DspOps) (s : Spectrogram) (xs : List ℚ)
    (hc : s.clamp_floor = true) :
    ∀ row ∈ (processSamples ops s xs).1, ∀ v ∈ row, s.db_floor ≤ v := by
  intro row hrow
  rcases processSamples_rows ops s xs row hrow with ⟨b, rfl⟩
  unfold frameRow
  rw [hc]
  simp only [if_true]
  exact clampRow_lower s.db_floor _

/-- Witness for `C6_floor_clamped`: all-zero input with `db_floor = -40`
and clamping enabled, with a `log10` instantiation returning `-100` so the
raw bin value `-2000` is actually below the floor; the returned row is
`[-40]`, clamped up to the floor. -/
theorem C6_floor_clamped_witness :
    [(-40 : ℚ)] ∈
        (processSamples ⟨id, fun _ => -100, id, id⟩
          { tinyS with clamp_floor := true } [0]).1 ∧
      ({ tinyS with clamp_floor := true } : Spectrogram).db_floor ≤ (-40 : ℚ) :=
  ⟨by with_unfolding_all decide,
    C6_floor_clamped ⟨id, fun _ => -100, id, id⟩ { tinyS with clamp_floor := true } [0] rfl
      [(-40 : ℚ)] (by with_unfolding_all decide) (-40 : ℚ) (by decide)⟩

lemma evictBack_eq_take (m : ℕ) : ∀ buf : List (List ℚ), evictBack m buf = buf.take m := by
  intro buf
  induction buf using evictBack.induct m with
  | case1 buf h ih =>
    rw [evictBack, if_pos h, ih, List.dropLast_eq_take, List.take_take]
    congr 1
    omega
  | case2 buf h =>
    rw [evictBack, if_neg h, List.take_of_length_le (by omega)]

lemma pushRow_buffer (st : AppState) (row : List ℚ) (bins : ℕ) :
    (pushRow st row bins).buffer =
      (truncRow st.zoom row bins :: st.buffer).take st.max_history := by
  unfold pushRow
  simp only [evictBack_eq_take]

lemma pushRow_len (st : AppState) (row : List ℚ) (bins : ℕ) :
    (pushRow st row bins).buffer.length ≤ st.max_history := by
  rw [pushRow_buffer, List.length_take]
  omega

lemma pushRow_fields (st : AppState) (row : List ℚ) (bins : ℕ) :
    (pushRow st row bins).max_history = st.max_history ∧
      (pushRow st row bins).zoom = st.zoom := ⟨rfl, rfl⟩

lemma applyPushes_len : ∀ (ps : List (List ℚ × ℕ)) (st : AppState),
    st.buffer.length ≤ st.max_history →
      (applyPushes st ps).buffer.length ≤ st.max_history ∧
        (applyPushes st ps).max_history = st.max_history := by
  intro ps
  induction ps with
  | nil => intro st h; exact ⟨h, rfl⟩
  | cons p ps ih =>
    intro st h
    have h2 := ih (pushRow st p.1 p.2) (pushRow_len st p.1 p.2)
    exact ⟨h2.1, h2.2⟩

/-- C7: the History Buffer length never exceeds `max_history` after any
sequence of pushes (starting from any buffer within capacity, in
particular the empty buffer of `App::new`); `max_history` is at least 16
(`settings.history.max(16)`); and each push evicts strictly from the back,
keeping the newest (front) entries: the post-push buffer is exactly the
first `max_history` entries of the front-inserted buffer. -/
theorem C7_history_bound (h : ℕ) (st : AppState) (ps : List (List ℚ × ℕ))
    (hst : st.buffer.length ≤ st.max_history) :
    16 ≤ appMaxHistory h ∧
      (applyPushes st ps).buffer.length ≤ st.max_history ∧
      ∀ (row : List ℚ) (bins : ℕ),
        (pushRow st row bins).buffer =
          (truncRow st.zoom row bins :: st.buffer).take st.max_history :=
  ⟨le_max_right h 16, (applyPushes_len ps st hst).1,
    fun row bins => pushRow_buffer st row bins⟩

/-- Witness for `C7_history_bound`: the empty buffer of `App::new` with
`history = 512` and three pushes at capacity 16. -/
theorem C7_history_bound_witness :
    16 ≤ appMaxHistory 512 ∧
      (applyPushes ⟨1, 16, []⟩ [([1, 2], 2), ([3], 1), ([4], 1)]).buffer.length ≤
        (⟨1, 16, []⟩ : AppState).max_history ∧
      ∀ (row : List ℚ) (bins : ℕ),
        (pushRow ⟨1, 16, []⟩ row bins).buffer =
          (truncRow (⟨1, 16, []⟩ : AppState).zoom row bins ::
            (⟨1, 16, []⟩ : AppState).buffer).take (⟨1, 16, []⟩ : AppState).max_history :=
  C7_history_bound 512 ⟨1, 16, []⟩ [([1, 2], 2), ([3], 1), ([4], 1)] (by decide)

lemma truncRow_length (zoom : ℚ) (row : List ℚ) (bins : ℕ)
    (hz : 1 ≤ zoom) (hb : row.length = bins) (hb1 : 1 ≤ bins) :
    (truncRow zoom row bins).length = max ((round ((bins : ℚ) / zoom)).toNat) 1 := by
  unfold truncRow
  rw [List.length_take, hb]
  have hdiv : (bins : ℚ) / zoom ≤ (bins : ℚ) :=
    div_le_self (by positivity) hz
  have hmono : round ((bins : ℚ) / zoom) ≤ round ((bins : ℚ)) := by
    rw [round_eq, round_eq]
    exact Int.floor_le_floor (by linarith)
  have hround : round ((bins : ℚ) / zoom) ≤ (bins : ℤ) :=
    le_trans hmono (le_of_eq (round_natCast bins))
  have htake : (round ((bins : ℚ) / zoom)).toNat ≤ bins := by omega
  omega

/-- C8: pushing a row of `N` bins while the zoom factor is `Z ≥ 1` stores,
at the front of the History Buffer, the row truncated to
`round(N/Z)` bins (minimum 1), using the zoom active at push time; and
`adjust_zoom` only rewrites the `zoom` field, leaving every already-stored
row unchanged. -/
theorem C8_zoom_truncation (st : AppState) (row : List ℚ) (bins : ℕ) (delta : ℚ)
    (hz : 1 ≤ st.zoom) (hb : row.length = bins) (hb1 : 1 ≤ bins)
    (hm : 1 ≤ st.max_history) :
    (pushRow st row bins).buffer.head? = some (truncRow st.zoom row bins) ∧
      (truncRow st.zoom row bins).length =
        max ((round ((bins : ℚ) / st.zoom)).toNat) 1 ∧
      (adjustZoom st delta).buffer = st.buffer := by
  refine ⟨?_, truncRow_length st.zoom row bins hz hb hb1, rfl⟩
  rw [pushRow_buffer]
  obtain ⟨k, hk⟩ : ∃ k, st.max_history = k + 1 := ⟨st.max_history - 1, by omega⟩
  rw [hk, List.take_succ_cons, List.head?_cons]

/-- Witness for `C8_zoom_truncation`: zoom 2, a 3-bin row, capacity 16. -/
theorem C8_zoom_truncation_witness :
    (pushRow ⟨2, 16, []⟩ [1, 2, 3] 3).buffer.head? =
        some (truncRow (⟨2, 16, []⟩ : AppState).zoom [1, 2, 3] 3) ∧
      (truncRow (⟨2, 16, []⟩ : AppState).zoom [1, 2, 3] 3).length =
        max ((round ((3 : ℚ) / (⟨2, 16, []⟩ : AppState).zoom)).toNat) 1 ∧
      (adjustZoom ⟨2, 16, []⟩ 1).buffer = (⟨2, 16, []⟩ : AppState).buffer :=
  C8_zoom_truncation ⟨2, 16, []⟩ [1, 2, 3] 3 1 (by decide) (by decide) (by decide) (by decide)

/-- C4 counterexample: on a full queue (64 entries, all distinct from the
incoming buffer), the callback leaves the queue exactly as it was — the
oldest-unconsumed audio is retained and it is the NEW downmixed buffer
that is silently dropped, contradicting the claimed drop-oldest policy. -/
theorem C4_counterexample :
    micCallback 1 [1] (List.replicate 64 []) = List.replicate 64 [] ∧
      downmix 1 [1] ∉ micCallback 1 [1] (List.replicate 64 []) := by
  with_unfolding_all decide

/-- C4 (amended): the capture enqueue is a total, non-blocking operation:
when the queue has space the downmixed buffer is appended, and when the
queue is full the incoming buffer is silently dropped, the queue left
unchanged (the oldest entries are kept, not evicted); the queue length
never exceeds the capacity 64. -/
theorem C4_amended (channels : ℕ) (data : List ℚ) (q : List (List ℚ))
    (hq : q.length ≤ 64) :
    micCallback channels data q =
        (if q.length < 64 then q ++ [downmix channels data] else q) ∧
      (micCallback channels data q).length ≤ 64 := by
  constructor
  · rfl
  · unfold micCallback tryEnqueue
    by_cases hlt : q.length < 64
    · rw [if_pos hlt]
      simp only [List.length_append, List.length_cons, List.length_nil]
      omega
    · rw [if_neg hlt]
      exact hq

/-- Witness for `C4_amended`: one-channel data `[1]` on the empty queue. -/
theorem C4_amended_witness :
    micCallback 1 [1] [] =
        (if ([] : List (List ℚ)).length < 64 then [] ++ [downmix 1 [1]] else []) ∧
      (micCallback 1 [1] []).length ≤ 64 :=
  C4_amended 1 [1] [] (by decide)

lemma requiredFuel_dec (step : ℚ) (hs : 0 < step) (len : ℕ) (pos : ℚ)
    (hg : pos + 1 < (len : ℚ)) :
    requiredFuel step len (pos + step) + 1 = requiredFuel step len pos := by
  unfold requiredFuel
  have hne : step ≠ 0 := ne_of_gt hs
  have e : ((len : ℚ) - (pos + step)) / step = ((len : ℚ) - pos) / step - 1 := by
    field_simp
    ring
  rw [e, Int.ceil_sub_one]
  have hpos : 0 < ⌈((len : ℚ) - pos) / step⌉ :=
    Int.ceil_pos.mpr (div_pos (by linarith) hs)
  omega

/-- With `requiredFuel` the fuel never runs out before the loop's exit
condition holds: the returned position satisfies `¬(pos + 1 < len)`,
exactly where the source's `while` stops. -/
lemma drainLoopF_exit (step : ℚ) (hs : 0 < step) (src : List ℚ) :
    ∀ fuel pos out, requiredFuel step src.length pos ≤ fuel →
      ¬ ((drainLoopF step src fuel pos out).1 + 1 < (src.length : ℚ)) := by
  intro fuel
  induction fuel with
  | zero =>
    intro pos out hfuel
    show ¬ (pos + 1 < (src.length : ℚ))
    intro hg
    have hpos : 0 < ⌈((src.length : ℚ) - pos) / step⌉ :=
      Int.ceil_pos.mpr (div_pos (by linarith) hs)
    unfold requiredFuel at hfuel
    omega
  | succ fuel ih =>
    intro pos out hfuel
    rw [drainLoopF]
    by_cases hg : pos + 1 < (src.length : ℚ)
    · rw [if_pos hg]
      apply ih
      have := requiredFuel_dec step hs src.length pos hg
      omega
    · rw [if_neg hg]
      exact hg

lemma drainLoopF_out_len (step : ℚ) (src : List ℚ) :
    ∀ fuel pos out, ((drainLoopF step src fuel pos out).2).length =
      out.length + iterCountF step src.length fuel pos := by
  intro fuel
  induction fuel with
  | zero => intro pos out; rfl
  | succ fuel ih =>
    intro pos out
    rw [drainLoopF, iterCountF]
    by_cases hg : pos + 1 < (src.length : ℚ)
    · rw [if_pos hg, if_pos hg, ih]
      simp only [List.length_append, List.length_cons, List.length_nil]
      omega
    · rw [if_neg hg, if_neg hg]
      simp

lemma resampleFinish_out (src_buf : List ℚ) (res : ℚ × List ℚ) :
    (resampleFinish src_buf res).2.2 = res.2 := by
  unfold resampleFinish
  split <;> rfl

lemma resampleDrain_out_len (ratio : ℚ) (src : List ℚ) (pos : ℚ) (out : List ℚ)
    (h2 : 2 ≤ src.length) (hr : 0 < ratio) :
    ((resampleDrain ratio src pos out).2.2).length =
      out.length +
        iterCountF (1 / ratio) src.length
          (requiredFuel (1 / ratio) src.length pos) pos := by
  unfold resampleDrain
  rw [if_neg (by omega), if_neg (not_le.mpr hr), resampleFinish_out]
  exact drainLoopF_out_len (1 / ratio) src _ pos out

set_option maxRecDepth 4000 in
/-- C9: the streaming resampler emits one interpolated sample per step of
`1/ratio = source_rate/target_rate` while `pos + 1` is inside the buffer;
draining a 100-sample buffer from position 0 at ratio 2.0 produces at
least 180 output samples (exactly 198), and at ratio 0.5 at most 60
(exactly 50). -/
theorem C9_resample_counts (src : List ℚ) (h : src.length = 100) :
    180 ≤ ((resampleDrain 2 src 0 []).2.2).length ∧
      ((resampleDrain (1 / 2) src 0 []).2.2).length ≤ 60 := by
  constructor
  · rw [resampleDrain_out_len 2 src 0 [] (by omega) (by norm_num), h]
    with_unfolding_all decide
  · rw [resampleDrain_out_len (1 / 2) src 0 [] (by omega) (by norm_num), h]
    with_unfolding_all decide

/-- Witness for `C9_resample_counts` on a concrete 100-sample buffer. -/
theorem C9_resample_counts_witness :
    180 ≤ ((resampleDrain 2 (List.replicate 100 (0 : ℚ)) 0 []).2.2).length ∧
      ((resampleDrain (1 / 2) (List.replicate 100 (0 : ℚ)) 0 []).2.2).length ≤ 60 :=
  C9_resample_counts (List.replicate 100 (0 : ℚ)) (by simp)

lemma emph_foldl_factor (beta : ℚ) :
    ∀ (xs : List ℚ) (z : ℚ × List ℚ),
      xs.foldl (fun acc x => (x, acc.2 ++ [x - beta * acc.1])) z =
        ((emphChunk beta z.1 xs).1, z.2 ++ (emphChunk beta z.1 xs).2) := by
  intro xs
  induction xs with
  | nil => intro z; simp [emphChunk]
  | cons x xs ih =>
    intro z
    rw [List.foldl_cons, ih (x, z.2 ++ [x - beta * z.1])]
    unfold emphChunk
    rw [List.foldl_cons, ih (x, [] ++ [x - beta * z.1])]
    simp
    exact ⟨rfl, rfl⟩

lemma ingest_emph (s : Spectrogram) (beta : ℚ) (hb : s.pre_emph = some beta)
    (xs : List ℚ) :
    ingest s xs = ((emphChunk beta s.prev_sample xs).1,
      s.overlap_buf ++ (emphChunk beta s.prev_sample xs).2) := by
  unfold ingest
  rw [hb]
  exact emph_foldl_factor beta xs (s.prev_sample, s.overlap_buf)

lemma ingest_none (s : Spectrogram) (hb : s.pre_emph = none) (xs : List ℚ) :
    ingest s xs = (s.prev_sample, s.overlap_buf ++ xs) := by
  unfold ingest
  rw [hb]

lemma emphChunk_append (beta p : ℚ) (a b : List ℚ) :
    emphChunk beta p (a ++ b) =
      ((emphChunk beta (emphChunk beta p a).1 b).1,
        (emphChunk beta p a).2 ++ (emphChunk beta (emphChunk beta p a).1 b).2) := by
  conv =>
    lhs
    unfold emphChunk
  rw [List.foldl_append]
  rw [emph_foldl_factor beta b]
  rw [emph_foldl_factor beta a]
  simp [emphChunk]

lemma frameTmp_append (s : Spectrogram) (xs ys : List ℚ) (h : s.frame_len ≤ xs.length) :
    frameTmp s (xs ++ ys) = frameTmp s xs := by
  unfold frameTmp
  apply List.map_congr_left
  intro i _
  by_cases hi : i < s.frame_len
  · rw [if_pos hi, if_pos hi, List.getD_append xs ys 0 i (by omega)]
  · rw [if_neg hi, if_neg hi]

lemma frameRow_append (ops : DspOps) (s : Spectrogram) (xs ys : List ℚ)
    (h : s.frame_len ≤ xs.length) :
    frameRow ops s (xs ++ ys) = frameRow ops s xs := by
  unfold frameRow rawRow fftBins
  rw [frameTmp_append s xs ys h]

lemma specLoopF_state_irrel (ops : DspOps) (s : Spectrogram) (p : ℚ) (ob : List ℚ) :
    ∀ fuel buf,
      specLoopF ops { s with prev_sample := p, overlap_buf := ob } fuel buf =
        specLoopF ops s fuel buf := by
  intro fuel
  induction fuel with
  | zero => intro buf; rfl
  | succ fuel ih =>
    intro buf
    show (if s.frame_len ≤ buf.length ∧ 1 ≤ s.hop ∧ 1 ≤ s.frame_len then
        (frameRow ops s buf ::
          (specLoopF ops { s with prev_sample := p, overlap_buf := ob } fuel
            (buf.drop (min s.hop buf.length))).1,
          (specLoopF ops { s with prev_sample := p, overlap_buf := ob } fuel
            (buf.drop (min s.hop buf.length))).2)
      else ([], buf)) = specLoopF ops s (fuel + 1) buf
    rw [ih (buf.drop (min s.hop buf.length))]
    rfl

lemma specLoop_state_irrel (ops : DspOps) (s : Spectrogram) (p : ℚ) (ob : List ℚ)
    (buf : List ℚ) :
    specLoop ops { s with prev_sample := p, overlap_buf := ob } buf =
      specLoop ops s buf :=
  specLoopF_state_irrel ops s p ob buf.length buf

lemma specLoop_append (ops : DspOps) (s : Spectrogram) (h1 : s.hop ≤ s.frame_len) :
    ∀ (n : ℕ) (xs ys : List ℚ), xs.length ≤ n →
      specLoop ops s (xs ++ ys) =
        ((specLoop ops s xs).1 ++ (specLoop ops s ((specLoop ops s xs).2 ++ ys)).1,
          (specLoop ops s ((specLoop ops s xs).2 ++ ys)).2) := by
  intro n
  induction n with
  | zero =>
    intro xs ys hlen
    have hx : xs = [] := List.length_eq_zero.mp (Nat.le_zero.mp hlen)
    subst hx
    rw [specLoop_eq ops s []]
    rw [if_neg (by simp only [List.length_nil]; omega)]
    simp
  | succ n ih =>
    intro xs ys hlen
    by_cases hg : s.frame_len ≤ xs.length ∧ 1 ≤ s.hop ∧ 1 ≤ s.frame_len
    · have hxs : s.hop ≤ xs.length := le_trans h1 hg.1
      have hgc : s.frame_len ≤ (xs ++ ys).length ∧ 1 ≤ s.hop ∧ 1 ≤ s.frame_len := by
        refine ⟨?_, hg.2⟩
        rw [List.length_append]
        omega
      rw [specLoop_eq ops s (xs ++ ys), if_pos hgc, specLoop_eq ops s xs, if_pos hg]
      have hm1 : min s.hop (xs ++ ys).length = s.hop := by
        rw [List.length_append]
        omega
      have hm2 : min s.hop xs.length = s.hop := by omega
      rw [hm1, hm2, List.drop_append_of_le_length hxs,
        frameRow_append ops s xs ys hg.1]
      have hdlen : (xs.drop s.hop).length ≤ n := by
        rw [List.length_drop]
        omega
      rw [ih (xs.drop s.hop) ys hdlen]
      simp
    · rw [specLoop_eq ops s xs, if_neg hg]
      simp

lemma ingest_split (s : Spectrogram) (a b : List ℚ) (ob : List ℚ) :
    ∃ (p2 : ℚ) (tail : List ℚ),
      ingest s (a ++ b) = (p2, (ingest s a).2 ++ tail) ∧
      ingest { s with prev_sample := (ingest s a).1, overlap_buf := ob } b =
        (p2, ob ++ tail) := by
  cases hpe : s.pre_emph with
  | none =>
    refine ⟨s.prev_sample, b, ?_, ?_⟩
    · rw [ingest_none s hpe (a ++ b), ingest_none s hpe a]
      simp
    · rw [ingest_none _ rfl b]
      show ((ingest s a).1, ob ++ b) = (s.prev_sample, ob ++ b)
      rw [ingest_none s hpe a]
  | some beta =>
    refine ⟨(emphChunk beta (emphChunk beta s.prev_sample a).1 b).1,
      (emphChunk beta (emphChunk beta s.prev_sample a).1 b).2, ?_, ?_⟩
    · rw [ingest_emph s beta hpe (a ++ b), ingest_emph s beta hpe a, emphChunk_append]
      simp
    · rw [ingest_emph _ beta rfl b]
      show ((emphChunk beta (ingest s a).1 b).1, ob ++ (emphChunk beta (ingest s a).1 b).2) = _
      rw [ingest_emph s beta hpe a]

/-- C10: `process_samples` is chunk-split invariant. For every state with
`hop ≤ frame_len` (which holds for every state `build` produces with a
nonzero frame length, and is preserved by processing), feeding `a` then `b`
yields the same concatenated rows and the same final state (overlap buffer
and pre-emphasis memory) as feeding `a ++ b` at once. -/
theorem C10_chunk_split (ops : DspOps) (s : Spectrogram) (a b : List ℚ)
    (h1 : s.hop ≤ s.frame_len) :
    (processSamples ops s (a ++ b)).1 =
        (processSamples ops s a).1 ++
          (processSamples ops (processSamples ops s a).2 b).1 ∧
      (processSamples ops s (a ++ b)).2 =
        (processSamples ops (processSamples ops s a).2 b).2 := by
  obtain ⟨p2, tail, hab, hb⟩ := ingest_split s a b (specLoop ops s (ingest s a).2).2
  have hab1 : (ingest s (a ++ b)).1 = p2 := by rw [hab]
  have hab2 : (ingest s (a ++ b)).2 = (ingest s a).2 ++ tail := by rw [hab]
  have hb1 : (ingest { s with
      prev_sample := (ingest s a).1,
      overlap_buf := (specLoop ops s (ingest s a).2).2 } b).1 = p2 := by rw [hb]
  have hb2 : (ingest { s with
      prev_sample := (ingest s a).1,
      overlap_buf := (specLoop ops s (ingest s a).2).2 } b).2 =
      (specLoop ops s (ingest s a).2).2 ++ tail := by rw [hb]
  have happ := specLoop_append ops s h1 (ingest s a).2.length (ingest s a).2 tail le_rfl
  constructor
  · show (specLoop ops s (ingest s (a ++ b)).2).1 =
      (specLoop ops s (ingest s a).2).1 ++
        (specLoop ops { s with
            prev_sample := (ingest s a).1,
            overlap_buf := (specLoop ops s (ingest s a).2).2 }
          (ingest { s with
            prev_sample := (ingest s a).1,
            overlap_buf := (specLoop ops s (ingest s a).2).2 } b).2).1
    rw [hab2, happ, hb2,
      specLoop_state_irrel ops s (ingest s a).1 (specLoop ops s (ingest s a).2).2
        ((specLoop ops s (ingest s a).2).2 ++ tail)]
  · show ({ s with
        prev_sample := (ingest s (a ++ b)).1,
        overlap_buf := (specLoop ops s (ingest s (a ++ b)).2).2 } : Spectrogram) =
      { s with
        prev_sample := (ingest { s with
            prev_sample := (ingest s a).1,
            overlap_buf := (specLoop ops s (ingest s a).2).2 } b).1,
        overlap_buf := (specLoop ops { s with
            prev_sample := (ingest s a).1,
            overlap_buf := (specLoop ops s (ingest s a).2).2 }
          (ingest { s with
            prev_sample := (ingest s a).1,
            overlap_buf := (specLoop ops s (ingest s a).2).2 } b).2).2 }
    rw [hab1, hab2, happ, hb1, hb2,
      specLoop_state_irrel ops s (ingest s a).1 (specLoop ops s (ingest s a).2).2
        ((specLoop ops s (ingest s a).2).2 ++ tail)]

/-- Witness for `C10_chunk_split`: state `tinyS`, chunks `[1, 2]` and `[3]`. -/
theorem C10_chunk_split_witness :
    (processSamples idOps tinyS ([1, 2] ++ [3])).1 =
        (processSamples idOps tinyS [1, 2]).1 ++
          (processSamples idOps (processSamples idOps tinyS [1, 2]).2 [3]).1 ∧
      (processSamples idOps tinyS ([1, 2] ++ [3])).2 =
        (processSamples idOps (processSamples idOps tinyS [1, 2]).2 [3]).2 :=
  C10_chunk_split idOps tinyS [1, 2] [3] (by decide)
